import Mathlib

/-!
Verification development for the Mass Tree core (src/mass/node.c and
src/mass/mass_tree.c): a shallow embedding of the node primitive, the
version/lock protocol, per-layer insertion and split, and the tree driver,
together with theorems settling the specification claims.

Conventions of the embedding:
* machine words are `Nat` with explicit `% 2 ^ 64` where C overflow matters;
* C pointers live in the inductive `Ptr`; nodes are addressed by indices into
  a heap (`List Node`);
* every C loop is embedded as structural recursion on an explicit fuel
  argument, so that concrete executions reduce by kernel evaluation; `none`
  from a fueled function means the modelled execution did not terminate
  within the fuel (or dereferenced an invalid pointer);
* `assert` is modelled as a no-op (an NDEBUG build), matching the fact that
  mass_tree.c itself calls node_insert on an interior node with is_link = 1;
* the header files node.h / mass_tree.h are not part of src/, so the
  version-word bit layout and the border-node helpers that mass_tree.c calls
  (node_search, node_include_key, node_get_conflict_key_index,
  node_replace_at_index, advance_key_offset, ...) are modelled from the
  spec; each such definition carries a `Modelled from the spec:` comment.
-/

set_option maxRecDepth 10000

namespace MassImpl

/-- Modelled from the spec: the 32-bit version word of node.h (not in src/)
encodes LOCKED, INSERTING, SPLITTING, IS-BORDER, IS-ROOT, DELETED bits plus
the monotonic VINSERT and VSPLIT counters; we model it as a record, the bit
positions being unknown. -/
structure Version where
  locked : Bool
  inserting : Bool
  splitting : Bool
  isBorder : Bool
  isRoot : Bool
  deleted : Bool
  vinsert : Nat
  vsplit : Nat
deriving DecidableEq

/-- The all-zero version word a fresh node starts from. -/
def version0 : Version :=
  ⟨false, false, false, false, false, false, 0, 0⟩

/-- Modelled from the spec: the set_border bit macro of node.h. -/
def set_border (v : Version) : Version := { v with isBorder := true }

/-- Modelled from the spec: the set_lock bit macro of node.h. -/
def set_lock (v : Version) : Version := { v with locked := true }

/-- Modelled from the spec: the unset_lock bit macro of node.h. -/
def unset_lock (v : Version) : Version := { v with locked := false }

/-- Modelled from the spec: the set_insert bit macro of node.h. -/
def set_insert (v : Version) : Version := { v with inserting := true }

/-- Modelled from the spec: the unset_insert bit macro of node.h. -/
def unset_insert (v : Version) : Version := { v with inserting := false }

/-- Modelled from the spec: the set_split bit macro of node.h. -/
def set_split (v : Version) : Version := { v with splitting := true }

/-- Modelled from the spec: the unset_split bit macro of node.h. -/
def unset_split (v : Version) : Version := { v with splitting := false }

/-- Modelled from the spec: the incr_vinsert macro of node.h (the VINSERT
counter; a small wrapping bit field in C, a `Nat` here). -/
def incr_vinsert (v : Version) : Version := { v with vinsert := v.vinsert + 1 }

/-- Modelled from the spec: the incr_vsplit macro of node.h. -/
def incr_vsplit (v : Version) : Version := { v with vsplit := v.vsplit + 1 }

/-- Modelled from the spec: the set_root bit macro of node.h. -/
def set_root_bit (v : Version) : Version := { v with isRoot := true }

/-- Modelled from the spec: the unset_root bit macro of node.h. -/
def unset_root_bit (v : Version) : Version := { v with isRoot := false }

/-- Modelled from the spec: `(x ^ y) == LOCK_BIT` on version words — the two
versions differ in the LOCKED bit and in nothing else. -/
def version_eq_xor_lock (a b : Version) : Bool :=
  a == { b with locked := !b.locked }

/-- Modelled from the spec: `(x ^ y) == 0 || (x ^ y) == LOCK_BIT` on version
words — the two versions agree except possibly on the LOCKED bit. -/
def version_eq_or_xor_lock (a b : Version) : Bool :=
  (a == b) || version_eq_xor_lock a b

/-- `#define max_key_count 15` (node.c). -/
def max_key_count : Nat := 15

/-- `#define link_value 13` (node.c): the keylen magic marking a LINK entry. -/
def link_value : Nat := 13

/-- `get_count` of node.c: nibble 15 of the packed permutation word. -/
def get_count (p : Nat) : Nat := (p >>> 60) &&& 15

/-- `get_index` of node.c: the physical slot stored at logical position
`index` of the packed permutation word. -/
def get_index (p index : Nat) : Nat := (p >>> (4 * (14 - index))) &&& 15

/-- `update_permutation` of node.c: insert physical slot `value` at logical
position `index`, then add one to the count nibble.  All uint64 arithmetic
wraps modulo `2 ^ 64`. -/
def update_permutation (p index value : Nat) : Nat :=
  let right := ((p <<< ((index + 1) * 4)) % 2 ^ 64) >>> ((index + 2) * 4)
  let left := (p >>> ((15 - index) * 4)) <<< ((15 - index) * 4)
  let middle := (value &&& 15) <<< ((14 - index) * 4)
  ((left ||| middle ||| right) + (1 <<< 60)) % 2 ^ 64

/-- Assemble at most eight bytes into a 64-bit value the way an x86
`memcpy`/64-bit load does (little-endian); missing bytes stay zero. -/
def bytesToSlice (bs : List Nat) : Nat :=
  (bs.take 8).foldr (fun b acc => b % 256 + 256 * acc) 0

/-- The little-endian byte image of a uint64, as produced by taking the
address of a C `uint64_t` variable (mass_tree.c passes `&fence` as a key). -/
def natToBytes8 (x : Nat) : List Nat :=
  [x % 256, x / 256 % 256, x / 256 ^ 2 % 256, x / 256 ^ 3 % 256,
   x / 256 ^ 4 % 256, x / 256 ^ 5 % 256, x / 256 ^ 6 % 256, x / 256 ^ 7 % 256]

/-- The slice computation shared verbatim by node_locate_child
(node.c:214-221) and node_insert (node.c:251-262): result is
`(cur, keylen, the value written back through ptr)`.  Note that in the
partial branch the C code is `memcpy(&cur, key, len - *ptr)` — it copies
from the *start* of the key, not from `key + *ptr`. -/
def node_current_slice (key : List Nat) (len off : Nat) : Nat × Nat × Nat :=
  if off + 8 > len then
    (bytesToSlice (key.take (len - off)), len - off, len)
  else
    (bytesToSlice ((key.drop off).take 8), 8, off + 8)

/-- The slice the spec prescribes: the 8-byte chunk of the key *at the
current offset*, zero-padded when fewer than 8 bytes remain. -/
def spec_current_slice (key : List Nat) (len off : Nat) : Nat :=
  bytesToSlice ((key.drop off).take (min 8 (len - off)))

/-- Modelled from the spec: `advance_key_offset(len, off)` of mass_tree.c's
missing header — descent into a deeper layer advances the offset by
min(8, remaining). -/
def advance_key_offset (len off : Nat) : Nat :=
  if off + 8 > len then len else off + 8

/-- Modelled from the spec: `compare_key` of the missing header — unsigned
64-bit comparison returning a sign. -/
def compare_key (a b : Nat) : Int :=
  if a < b then -1 else if a = b then 0 else 1

/-- A C `void *` value as it appears in this program: a small integer
sentinel cast to a pointer, a pointer to the caller's key bytes, an opaque
user value handle, or a pointer to a node of the heap. -/
inductive Ptr
  | sentinel (z : Int)
  | keyP (bytes : List Nat)
  | valP (v : Nat)
  | nodeP (id : Nat)
deriving DecidableEq

/-- A border node's `lv` slot: for a data entry the packed
(full key length, offset-after-this-layer) pair — note node.c stores *no
value pointer* for a data entry — and for a LINK entry the next-layer root
pointer. -/
inductive LV
  | unset
  | kv (len off : Nat)
  | link (p : Ptr)
deriving DecidableEq

/-- The per-variant payload: `child[0..15]` for an interior node;
`nremoved`, `keylen[0..14]`, `suffix[0..14]`, `lv[0..14]`, `prev`, `next`
for a border node. -/
inductive NodePayload
  | interior (child : List Ptr)
  | border (nremoved : Nat) (keylen : List Nat) (suffix : List (List Nat))
      (lv : List LV) (prev : Option Nat) (next : Option Nat)
deriving DecidableEq

/-- The common node header (version, permutation, keyslice[0..14], parent)
plus the variant payload. -/
structure Node where
  version : Version
  permutation : Nat
  keyslice : List Nat
  parent : Option Nat
  payload : NodePayload
deriving DecidableEq

/-- `new_border_node` of node.c (uninitialized malloc fields modelled as
zeros / empty lists; only `nremoved` and `keylen` are memset in C, and the
permutation count guards every read of the rest). -/
def new_border_node : Node :=
  { version := set_border version0
    permutation := 0
    keyslice := List.replicate 15 0
    parent := none
    payload := .border 0 (List.replicate 15 0) (List.replicate 15 [])
      (List.replicate 15 .unset) none none }

/-- `new_interior_node` of node.c. -/
def new_interior_node : Node :=
  { version := version0
    permutation := 0
    keyslice := List.replicate 15 0
    parent := none
    payload := .interior (List.replicate 16 (.sentinel 0)) }

/-- `node_unlock` of node.c (the version word it stores): if INSERTING was
raised, increment VINSERT and clear INSERTING; **else** if SPLITTING was
raised, increment VSPLIT and clear SPLITTING; then clear LOCKED. -/
def node_unlock (version : Version) : Version :=
  let version :=
    if version.inserting then unset_insert (incr_vinsert version)
    else if version.splitting then unset_split (incr_vsplit version)
    else version
  unset_lock version

/-- `node_get_stable_version` of node.c: spins until neither INSERTING nor
SPLITTING is raised; in the sequential model a raised flag means the spin
never ends, hence `none`. -/
def node_get_stable_version (v : Version) : Option Version :=
  if v.inserting || v.splitting then none else some v

/-- The outcome of node.c's `node_insert`: the returned `void *`
(`0` = key already present at this slice, `1` = inserted, `-1` = node full
with the offset restored, or the matched LINK entry's next-layer pointer),
the updated node, and the offset value written back through `ptr`. -/
structure InsertOut where
  ret : Ptr
  n : Node
  off : Nat
deriving DecidableEq

/-- The outcome of the binary search inside node_insert: a logical position
whose slice equals `cur` (returning its physical `index`), or a miss with
the final value of `low`. -/
inductive SearchRes
  | found (index : Nat)
  | miss (low : Int)
deriving DecidableEq

/-- The `while (low <= high)` binary search of node_insert (node.c:266-285),
fuel-structural.  `low`, `high`, `mid` are C ints; `mid = (low + high) / 2`
is C's truncating division. -/
def insert_bsearch (ks : List Nat) (p cur : Nat) :
    Nat → Int → Int → SearchRes
  | 0, low, _ => .miss low
  | fuel + 1, low, high =>
    if low ≤ high then
      let mid : Int := Int.tdiv (low + high) 2
      let index := get_index p mid.toNat
      if ks.getD index 0 = cur then .found index
      else if ks.getD index 0 < cur then insert_bsearch ks p cur fuel (mid + 1) high
      else insert_bsearch ks p cur fuel low (mid - 1)
    else .miss low

/-- `node_insert` of node.c (node.c:242-319).  Requires the node locked.
Computes the current slice, binary-searches the permutation; on a slice
match in a border node returns the LINK pointer or `(void *)0`; on a full
node returns `(void *)-1` restoring the offset; otherwise raises INSERTING
and appends slice and payload at physical slot `count` (for a data entry
the `val` argument is *not* stored: only keylen, the key pointer and the
packed (len, offset) pair are written).  Note that the node's permutation
word is *not* updated: node.c:249 loads it into a local variable, the
update_permutation macro at node.c:316 rewrites only that local, and the
function returns without calling node_set_permutation (the split routines
do call it, node.c:352/355/396/397), so the returned node keeps the
caller's permutation. -/
def node_insert (n : Node) (key : List Nat) (len off : Nat) (val : Ptr)
    (is_link : Bool) : InsertOut :=
  let version := n.version
  let permutation := n.permutation
  let c := node_current_slice key len off
  let cur := c.1
  let keylen := c.2.1
  let off' := c.2.2
  let count := get_count permutation
  match insert_bsearch n.keyslice permutation cur (count + 1) 0 ((count : Int) - 1) with
  | .found index =>
    match n.payload with
    | .border _ kl _ lv _ _ =>
      if kl.getD index 0 = link_value then
        ⟨(match lv.getD index .unset with | .link p => p | _ => .sentinel 0), n, off'⟩
      else ⟨.sentinel 0, n, off'⟩
    | .interior _ => ⟨.sentinel 0, n, off'⟩
  | .miss _low =>
    if count = max_key_count then ⟨.sentinel (-1), n, off⟩
    else
      let n' : Node :=
        { n with
          version := set_insert version
          keyslice := n.keyslice.set count cur
          payload :=
            match n.payload with
            | .border nr kl sf lv pv nx =>
              if is_link then
                .border nr (kl.set count link_value) sf
                  (lv.set count (.link val)) pv nx
              else
                .border nr (kl.set count keylen) (sf.set count key)
                  (lv.set count (.kv len off')) pv nx
            | .interior ch => .interior (ch.set (count + 1) val) }
      ⟨.sentinel 1, n', off'⟩

/-- The `while (count > 0)` loop of node_locate_child (node.c:224-236),
fuel-structural; returns the final value of `first`. -/
def locate_loop (ks : List Nat) (p cur : Nat) :
    Nat → Nat → Nat → Nat
  | 0, first, _ => first
  | fuel + 1, first, count =>
    if 0 < count then
      let half := count / 2
      let middle := first + half
      let index := get_index p middle
      if ks.getD index 0 ≤ cur then locate_loop ks p cur fuel (middle + 1) (count - (half + 1))
      else locate_loop ks p cur fuel first half
    else first

/-- `node_locate_child` of node.c (interior only): compute the current
slice, binary-search for the largest position with slice ≤ cur, and return
that child (with the offset value written back through ptr). -/
def node_locate_child (n : Node) (key : List Nat) (len off : Nat) : Ptr × Nat :=
  let c := node_current_slice key len off
  let cur := c.1
  let off' := c.2.2
  let permutation := n.permutation
  let count := get_count permutation
  let first := locate_loop n.keyslice permutation cur (count + 1) 0 count
  match n.payload with
  | .interior ch => (ch.getD first (.sentinel 0), off')
  | .border _ _ _ _ _ _ => (.sentinel 0, off')

/-- `node_descend`, the name under which mass_tree.c calls the interior
locate-child operation (the header mapping it to node.c's node_locate_child
is not in src/). -/
def node_descend (n : Node) (key : List Nat) (len off : Nat) : Ptr × Nat :=
  node_locate_child n key len off

/-- The node heap: node ids are list indices; allocation appends. -/
abbrev Heap := List Node

/-- Dereference a node pointer. -/
def hget (h : Heap) (i : Nat) : Option Node := h.get? i

/-- Store through a node pointer (no-op on an out-of-range id; validity is
carried as a hypothesis where it matters). -/
def hset (h : Heap) (i : Nat) (n : Node) : Heap := h.set i n

/-- Update a node in place. -/
def hmod (h : Heap) (i : Nat) (f : Node → Node) : Heap :=
  match hget h i with
  | some n => hset h i (f n)
  | none => h

/-- `node_lock` in the sequential model: the spin-wait always succeeds at
once and the CAS publishes the version with LOCKED set. -/
def heap_lock (h : Heap) (i : Nat) : Heap :=
  hmod h i fun n => { n with version := set_lock n.version }

/-- `node_unlock` at the heap level (node.c:173-188). -/
def heap_unlock (h : Heap) (i : Nat) : Heap :=
  hmod h i fun n => { n with version := node_unlock n.version }

/-- `node_set_root` of the missing header, as used by mass_tree.c: raise the
IS-ROOT bit. -/
def heap_set_root (h : Heap) (i : Nat) : Heap :=
  hmod h i fun n => { n with version := set_root_bit n.version }

/-- `node_unset_root` of the missing header: clear the IS-ROOT bit. -/
def heap_unset_root (h : Heap) (i : Nat) : Heap :=
  hmod h i fun n => { n with version := unset_root_bit n.version }

/-- `node_set_parent(n, p)` of the missing header. -/
def heap_set_parent (h : Heap) (i : Nat) (p : Nat) : Heap :=
  hmod h i fun n => { n with parent := some p }

/-- `node_set_first_child(r, n)` of the missing header: `child[0] := n` of a
fresh interior root. -/
def heap_set_first_child (h : Heap) (i : Nat) (c : Nat) : Heap :=
  hmod h i fun n =>
    { n with payload :=
        match n.payload with
        | .interior ch => .interior (ch.set 0 (.nodeP c))
        | other => other }

/-- Allocate a node: returns the new heap and the fresh id. -/
def halloc (h : Heap) (n : Node) : Heap × Nat := (h ++ [n], h.length)

/-- `node_get_next` of the missing header: a border node's right sibling. -/
def node_get_next (n : Node) : Option Nat :=
  match n.payload with
  | .border _ _ _ _ _ nx => nx
  | .interior _ => none

/-- Modelled from the spec: `node_is_full` of the missing header — the
node holds `max_key_count` keys. -/
def node_is_full (n : Node) : Bool := get_count n.permutation = max_key_count

/-- Modelled from the spec: `node_include_key` of the missing header — true
iff the key's current slice is ≥ the sibling's smallest slice. -/
def node_include_key (n : Node) (key : List Nat) (len off : Nat) : Bool :=
  let cur := spec_current_slice key len off
  let count := get_count n.permutation
  if count = 0 then false
  else n.keyslice.getD (get_index n.permutation 0) 0 ≤ cur

/-- Modelled from the spec: `get_next_keyslice` of the missing header — the
key's current slice, offset unchanged. -/
def get_next_keyslice (key : List Nat) (len off : Nat) : Nat :=
  spec_current_slice key len off

/-- Modelled from the spec: `node_get_conflict_key_index` of the missing
header — the physical index of the existing non-LINK border entry whose
slice collides with the key at this offset, together with the conflicting
key's bytes and length (read from the entry's suffix pointer and packed lv
pair); `none` when no such entry exists. -/
def node_get_conflict_key_index (n : Node) (key : List Nat) (len off : Nat) :
    Option (Nat × List Nat × Nat) :=
  let cur := spec_current_slice key len off
  let count := get_count n.permutation
  match n.payload with
  | .border _ kl sf lv _ _ =>
    (List.range count).findSome? fun i =>
      let idx := get_index n.permutation i
      if n.keyslice.getD idx 0 = cur && kl.getD idx 0 != link_value then
        some (idx, sf.getD idx [],
          match lv.getD idx .unset with | .kv l _ => l | _ => 0)
      else none
  | .interior _ => none

/-- Modelled from the spec: `node_replace_at_index(n, idx, n1)` of the
missing header — convert the non-LINK entry at physical index `idx` into a
LINK entry pointing to `n1`, raising the version's INSERTING bit. -/
def node_replace_at_index (h : Heap) (i idx child : Nat) : Heap :=
  hmod h i fun n =>
    { n with
      version := set_insert n.version
      payload :=
        match n.payload with
        | .border nr kl sf lv pv nx =>
          .border nr (kl.set idx link_value) sf (lv.set idx (.link (.nodeP child))) pv nx
        | other => other }

/-- Modelled from the spec: `node_swap_child(p, old, new)` of the missing
header — in the border node `p`, redirect the LINK entry that pointed to
`old` so that it points to `new`. -/
def node_swap_child (h : Heap) (i oldc newc : Nat) : Heap :=
  hmod h i fun n =>
    { n with payload :=
        match n.payload with
        | .border nr kl sf lv pv nx =>
          .border nr kl sf
            (lv.map fun e => if e = .link (.nodeP oldc) then .link (.nodeP newc) else e)
            pv nx
        | .interior ch =>
          .interior (ch.map fun c => if c = .nodeP oldc then .nodeP newc else c) }

/-- The permutation both split routines build for the low node with the
`for (int i = 0; i < 7; ++i) update_permutation(permutation, i, i)` loop
starting from zero: count 7, identity mapping. -/
def split_lo_perm : Nat := (List.range 7).foldl (fun p i => update_permutation p i i) 0

/-- The permutation border_node_split publishes in `bn1`:
`update_permutation(permutation, 7, 7)` on top of the count-7 identity —
count 8, identity mapping. -/
def split_hi_perm : Nat := update_permutation split_lo_perm 7 7

/-- `border_node_split` of node.c (node.c:322-368): materialize the 15
entries in permutation order into `bn1`, copy the first 7 back into `bn`,
shift the remaining 8 down in `bn1`, publish permutations of count 7 and 8,
then splice `bn1` between `bn` and `bn->next` — the C code stores through
`old_next->prev` without a null check, so a null `bn->next` is a null
dereference (`none`).  Returns the heap and the fence key
`bn1->keyslice[0]`. -/
def border_node_split (h : Heap) (bnId bn1Id : Nat) : Option (Heap × Nat) :=
  match hget h bnId, hget h bn1Id with
  | some bn, some bn1 =>
    match bn.payload, bn1.payload with
    | .border nr kl sf lv pv nx, .border nr1 kl1 sf1 lv1 _pv1 _nx1 =>
      let permutation := bn.permutation
      let count := get_count permutation
      -- copy all keys from bn to bn1 in key order
      let msk := (List.range count).map fun i => bn.keyslice.getD (get_index permutation i) 0
      let mkl := (List.range count).map fun i => kl.getD (get_index permutation i) 0
      let msf := (List.range count).map fun i => sf.getD (get_index permutation i) []
      let mlv := (List.range count).map fun i => lv.getD (get_index permutation i) .unset
      let ks1 := msk ++ bn1.keyslice.drop count
      let kl1a := mkl ++ kl1.drop count
      let sf1a := msf ++ sf1.drop count
      let lv1a := mlv ++ lv1.drop count
      -- move the first half back to bn
      let bnKs := ks1.take 7 ++ bn.keyslice.drop 7
      let bnKl := kl1a.take 7 ++ kl.drop 7
      let bnSf := sf1a.take 7 ++ sf.drop 7
      let bnLv := lv1a.take 7 ++ lv.drop 7
      -- and move the other half down inside bn1
      let ks1b := (ks1.drop 7).take 8 ++ ks1.drop 8
      let kl1b := (kl1a.drop 7).take 8 ++ kl1a.drop 8
      let sf1b := (sf1a.drop 7).take 8 ++ sf1a.drop 8
      let lv1b := (lv1a.drop 7).take 8 ++ lv1a.drop 8
      -- permutations: count 7 (identity) for bn, count 8 (identity) for bn1
      let perm7 := split_lo_perm
      let perm8 := split_hi_perm
      -- splice bn1 between bn and bn->next
      match nx with
      | none => none   -- old_next == NULL: `old_next->prev` dereferences null
      | some oldNext =>
        let bn' := { bn with
                     permutation := perm7
                     keyslice := bnKs
                     payload := .border nr bnKl bnSf bnLv pv (some bn1Id) }
        let bn1' := { bn1 with
                      permutation := perm8
                      keyslice := ks1b
                      payload := .border nr1 kl1b sf1b lv1b (some bnId) (some oldNext) }
        let h1 := hset (hset h bnId bn') bn1Id bn1'
        let h2 := hmod h1 oldNext fun m =>
          { m with payload :=
              match m.payload with
              | .border mnr mkl2 msf2 mlv2 _ mnx => .border mnr mkl2 msf2 mlv2 (some bn1Id) mnx
              | other => other }
        some (h2, ks1b.getD 0 0)
    | _, _ => none
  | _, _ => none

/-- `interior_node_split` of node.c (node.c:371-401): materialize keys and
children in permutation order into `in1`, keep the lowest 7 keys (children
0..7) in `in`, lift the key at position 7 as the fence, and move the upper
7 keys (children 0..7) to `in1`. -/
def interior_node_split (h : Heap) (inId in1Id : Nat) : Option (Heap × Nat) :=
  match hget h inId, hget h in1Id with
  | some nd, some nd1 =>
    match nd.payload, nd1.payload with
    | .interior ch, .interior ch1 =>
      let permutation := nd.permutation
      let count := get_count permutation
      let msk := (List.range count).map fun i => nd.keyslice.getD (get_index permutation i) 0
      let mch := (List.range count).map fun i => ch.getD (get_index permutation i + 1) (.sentinel 0)
      let ks1 := msk ++ nd1.keyslice.drop count
      let ch1a := mch ++ ch1.drop count
      let ndKs := ks1.take 7 ++ nd.keyslice.drop 7
      let ndCh := ch.take 1 ++ ch1a.take 7 ++ ch.drop 8
      let fence := ks1.getD 7 0
      let ks1b := (ks1.drop 8).take 7 ++ ks1.drop 7
      let ch1b := (ch1a.drop 7).take 8 ++ ch1a.drop 8
      let perm7 := split_lo_perm
      let nd' := { nd with permutation := perm7, keyslice := ndKs, payload := .interior ndCh }
      let nd1' := { nd1 with permutation := perm7, keyslice := ks1b, payload := .interior ch1b }
      some (hset (hset h inId nd') in1Id nd1', fence)
    | _, _ => none
  | _, _ => none

/-- `node_split` of node.c (node.c:404-426): allocate a sibling of the same
kind, raise SPLITTING on `n` and copy the same version into `n1` (born
locked and splitting), copy the parent pointer, and dispatch to the border
or interior split.  Returns the heap, the fence key and the new node's
id. -/
def node_split (h : Heap) (nId : Nat) : Option (Heap × Nat × Nat) :=
  match hget h nId with
  | none => none
  | some n =>
    let border := n.version.isBorder
    let a := halloc h (if border then new_border_node else new_interior_node)
    let h1 := a.1
    let n1Id := a.2
    let version := set_split n.version
    let h2 := hmod h1 nId fun nd => { nd with version := version }
    let h3 := hmod h2 n1Id fun nd => { nd with version := version, parent := n.parent }
    if border then
      (border_node_split h3 nId n1Id).map fun r => (r.1, r.2, n1Id)
    else
      (interior_node_split h3 nId n1Id).map fun r => (r.1, r.2, n1Id)

/-- The tree container of mass_tree.c: the heap plus the atomic root
pointer. -/
structure MassTree where
  heap : Heap
  root : Nat
deriving DecidableEq

/-- `new_mass_tree`: a fresh empty border marked root. -/
def new_mass_tree : MassTree :=
  { heap := [{ new_border_node with version := set_root_bit new_border_node.version }]
    root := 0 }

/-- The control point of find_border_node: at the `retry` label, or at the
`descend` label holding the current node and its stable version. -/
inductive FBState
  | retry
  | descend (n : Nat) (v : Version)
deriving DecidableEq

/-- `find_border_node` of mass_tree.c (mass_tree.c:63-105), fuel-structural
with one fuel unit per label transition.  Note the source's `!is_root(v)`
branch: it computes `node_get_parent(n)` and jumps to `retry`, whose first
statement reassigns `n = r`, so the computed parent is discarded and the
loop restarts at `r` unconditionally. -/
def find_border_go (h : Heap) (key : List Nat) (len off r : Nat) :
    Nat → FBState → Option (Nat × Version)
  | 0, _ => none
  | fuel + 1, .retry =>
    let n := r
    match hget h n with
    | none => none
    | some nd =>
      match node_get_stable_version nd.version with
      | none => none
      | some v =>
        if !v.isRoot then
          -- n = node_get_parent(n); goto retry;   (retry reassigns n = r)
          let _parent := nd.parent
          find_border_go h key len off r fuel .retry
        else find_border_go h key len off r fuel (.descend n v)
  | fuel + 1, .descend n v =>
    if v.isBorder then some (n, v)
    else
      match hget h n with
      | none => none
      | some nd =>
        match (node_descend nd key len off).1 with
        | .nodeP n1 =>
          match hget h n1 with
          | none => none
          | some nd1 =>
            match node_get_stable_version nd1.version with
            | none => none
            | some v1 =>
              if version_eq_or_xor_lock nd.version v then
                find_border_go h key len off r fuel (.descend n1 v1)
              else
                match node_get_stable_version nd.version with
                | none => none
                | some v2 =>
                  if v2.vsplit ≠ v.vsplit then find_border_go h key len off r fuel .retry
                  else find_border_go h key len off r fuel (.descend n v2)
        | _ => none

/-- `find_border_node` entry: start at the `retry` label. -/
def find_border_node (h : Heap) (key : List Nat) (len off r fuel : Nat) :
    Option (Nat × Version) :=
  find_border_go h key len off r fuel .retry

/-- `mass_tree_grow` of mass_tree.c (mass_tree.c:38-60): allocate a new
interior root, lock it, mark it root, set its first child to `n`, insert
the fence (the C call passes `&fence` as an 8-byte key, offset 0, is_link
= 1) mapping to `n1`, reparent `n` and `n1`, clear their IS-ROOT bits, and
unlock the new root.  Returns the heap and the new root's id. -/
def mass_tree_grow (h : Heap) (n fence n1 : Nat) : Heap × Nat :=
  let a := halloc h new_interior_node
  let r := a.2
  let h1 := heap_lock a.1 r
  let h2 := heap_set_root h1 r
  let h3 := heap_set_first_child h2 r n
  let h4 := hmod h3 r fun rd => (node_insert rd (natToBytes8 fence) 8 0 (.nodeP n1) true).n
  let h5 := heap_set_parent h4 n r
  let h6 := heap_set_parent h5 n1 r
  let h7 := heap_unset_root h6 n
  let h8 := heap_unset_root h7 n1
  (heap_unlock h8 r, r)

/-- `node_get_locked_parent` of node.c (node.c:190-202): read the parent;
if null return null, else lock it and re-check (in the sequential model the
re-read always agrees).  Returns the heap after locking and the parent. -/
def node_get_locked_parent (h : Heap) (n : Nat) : Option (Heap × Option Nat) :=
  match hget h n with
  | none => none
  | some nd =>
    match nd.parent with
    | none => some (h, none)
    | some p => some (heap_lock h p, some p)

/-- `mass_tree_promote_split_node` of mass_tree.c (mass_tree.c:108-155),
fuel-structural on the `ascend` loop. -/
def mass_tree_promote_split_node (mt : MassTree) (n fence n1 : Nat) :
    Nat → Option MassTree
  | 0 => none
  | fuel + 1 =>
    match node_get_locked_parent mt.heap n with
    | none => none
    | some (h0, none) =>
      let g := mass_tree_grow h0 n fence n1
      let h1 := heap_unlock g.1 n
      let h2 := heap_unlock h1 n1
      some { heap := h2, root := g.2 }
    | some (h0, some p) =>
      let h1 := heap_set_parent h0 n1 p
      match hget h1 p with
      | none => none
      | some pd =>
        if pd.version.isBorder then
          let g := mass_tree_grow h1 n fence n1
          let h2 := node_swap_child g.1 p n g.2
          some { heap := heap_unlock (heap_unlock (heap_unlock h2 n) n1) p
                 root := mt.root }
        else if !node_is_full pd then
          let h2 :=
            match hget h1 p with
            | some pd2 => hset h1 p (node_insert pd2 (natToBytes8 fence) 8 0 (.nodeP n1) true).n
            | none => h1
          some { heap := heap_unlock (heap_unlock (heap_unlock h2 n) n1) p
                 root := mt.root }
        else
          let h2 := hmod h1 p fun nd => { nd with version := set_split nd.version }
          let h3 := heap_unlock h2 n
          match node_split h3 p with
          | none => none
          | some (h4, fence1, p1) =>
            let target := if compare_key fence fence1 < 0 then p else p1
            let h5 :=
              match hget h4 target with
              | some td => hset h4 target (node_insert td (natToBytes8 fence) 8 0 (.nodeP n1) true).n
              | none => h4
            let h6 := heap_unlock h5 n1
            mass_tree_promote_split_node { heap := h6, root := mt.root } p fence1 p1 fuel

/-- The sibling-chain walk of mass_tree_put (mass_tree.c:170-187): when the
version changed between descent and lock, follow `next` hand-over-hand
while the next sibling includes the key. -/
def put_sibling_walk (key : List Nat) (len off : Nat) :
    Nat → Heap → Nat → Option (Heap × Nat)
  | 0, _, _ => none
  | fuel + 1, h, n =>
    match hget h n with
    | none => none
    | some nd =>
      match node_get_next nd with
      | none => some (h, n)
      | some nxt =>
        let h1 := heap_lock h nxt
        match hget h1 nxt with
        | none => none
        | some nxtd =>
          if !node_include_key nxtd key len off then some (heap_unlock h1 nxt, n)
          else put_sibling_walk key len off fuel (heap_unlock h1 n) nxt

/-- `mass_tree_put` of mass_tree.c (mass_tree.c:157-232), fuel-structural on
the `again` loop.  mass_tree.c passes `off` by value at every node_insert
call site and advances it itself with advance_key_offset, so the offset
written back through node.c's `ptr` is discarded here.  The C switch on the
returned sentinel is modelled literally: `0` existed, `1` inserted, `-1`
taken as "create a deeper layer", `-2` taken as "split", any other value
taken as a next-layer node pointer. -/
def mass_tree_put_go (key : List Nat) (len : Nat) (val : Ptr) :
    Nat → MassTree → Nat → Nat → Option (Int × MassTree)
  | 0, _, _, _ => none
  | fuel + 1, mt, r, off =>
    match find_border_node mt.heap key len off r fuel with
    | none => none
    | some (n0, v) =>
      let h1 := heap_lock mt.heap n0
      match hget h1 n0 with
      | none => none
      | some nd0 =>
        match
          (if version_eq_xor_lock nd0.version v then some (h1, n0)
           else put_sibling_walk key len off fuel h1 n0) with
        | none => none
        | some (h2, n) =>
          match hget h2 n with
          | none => none
          | some nd =>
            let out := node_insert nd key len off val false
            let h3 := hset h2 n out.n
            if out.ret = .sentinel 0 then
              some (0, { heap := heap_unlock h3 n, root := mt.root })
            else if out.ret = .sentinel 1 then
              some (1, { heap := heap_unlock h3 n, root := mt.root })
            else if out.ret = .sentinel (-1) then
              -- case -1: "need to create a deeper layer" (mass_tree.c:195-211)
              let a := halloc h3 { new_border_node with
                                   version := set_root_bit new_border_node.version }
              let h4 := a.1
              let n1 := a.2
              match hget h4 n with
              | none => none
              | some ndc =>
                match node_get_conflict_key_index ndc key len off with
                | none => none
                | some (idx, ckey, clen) =>
                  let coff := advance_key_offset clen off
                  let h5 :=
                    match hget h4 n1 with
                    | some n1d => hset h4 n1 (node_insert n1d ckey clen coff (.sentinel 0) false).n
                    | none => h4
                  let off2 := advance_key_offset len off
                  let h6 :=
                    match hget h5 n1 with
                    | some n1d => hset h5 n1 (node_insert n1d key len off2 val false).n
                    | none => h5
                  let h7 := heap_set_parent h6 n1 n
                  let h8 := node_replace_at_index h7 n idx n1
                  -- the source returns here without unlocking n
                  some (1, { heap := h8, root := mt.root })
            else if out.ret = .sentinel (-2) then
              -- case -2: "node is full, need to split and promote"
              -- (mass_tree.c:212-225; node.c's node_insert never returns -2)
              match node_split h3 n with
              | none => none
              | some (h4, fence, n1) =>
                let cur := get_next_keyslice key len off
                let target := if compare_key cur fence < 0 then n else n1
                let h5 :=
                  match hget h4 target with
                  | some td => hset h4 target (node_insert td key len off val false).n
                  | none => h4
                match mass_tree_promote_split_node { heap := h5, root := mt.root } n fence n1 fuel with
                | none => none
                | some mt' => some (1, mt')
            else
              match out.ret with
              | .nodeP id =>
                mass_tree_put_go key len val fuel
                  { heap := heap_unlock h3 n, root := mt.root } id (advance_key_offset len off)
              | _ => none

/-- `mass_tree_put` entry. -/
def mass_tree_put (mt : MassTree) (key : List Nat) (len : Nat) (val : Ptr)
    (fuel : Nat) : Option (Int × MassTree) :=
  mass_tree_put_go key len val fuel mt mt.root 0

/-- A border node's `prev` sibling pointer. -/
def node_get_prev (n : Node) : Option Nat :=
  match n.payload with
  | .border _ _ _ _ pv _ => pv
  | .interior _ => none

/-- A border node's `keylen` array (empty for an interior node). -/
def border_keylen (n : Node) : List Nat :=
  match n.payload with
  | .border _ kl _ _ _ _ => kl
  | .interior _ => []

/-- A border node's `suffix` array. -/
def border_suffix (n : Node) : List (List Nat) :=
  match n.payload with
  | .border _ _ sf _ _ _ => sf
  | .interior _ => []

/-- A border node's `lv` array. -/
def border_lv (n : Node) : List LV :=
  match n.payload with
  | .border _ _ _ lv _ _ => lv
  | .interior _ => []

/-- The key slices of a node materialized in permutation (logical) order,
as the first loop of the split routines reads them. -/
def sorted_slices (n : Node) : List Nat :=
  (List.range (get_count n.permutation)).map fun i =>
    n.keyslice.getD (get_index n.permutation i) 0

/-- The suffix pointers of a border node materialized in permutation
order. -/
def sorted_suffixes (n : Node) : List (List Nat) :=
  (List.range (get_count n.permutation)).map fun i =>
    (border_suffix n).getD (get_index n.permutation i) []

/-- The 15-byte key "prefix00suffixA". -/
def key_suffixA : List Nat :=
  [112, 114, 101, 102, 105, 120, 48, 48, 115, 117, 102, 102, 105, 120, 65]

/-- A full border root: count-15 identity permutation, slices 97..111
(keys "a".."o"), IS-ROOT set, `next` null.  Constructed directly: only the
split routines ever publish a permutation (node_insert does not,
node.c:316), so no sequence of puts can produce a visible count. -/
def c4_full_root : Node :=
  { version := set_root_bit (set_border version0)
    permutation := (List.range 15).foldl (fun p i => update_permutation p i i) 0
    keyslice := (List.range 15).map fun i => 97 + i
    parent := none
    payload := .border 0 (List.replicate 15 1)
      ((List.range 15).map fun i => [97 + i])
      (List.replicate 15 (.kv 1 1)) none none }

/-- A tree whose root is the directly-constructed full border. -/
def c4_tree : MassTree := ⟨[c4_full_root], 0⟩

/-- A border node that lost its IS-ROOT bit (the root moved), whose parent
pointer names the true root. -/
def stale_root_node : Node := { new_border_node with parent := some 1 }

/-- The true root border that `stale_root_node.parent` points at. -/
def true_root_node : Node :=
  { new_border_node with version := set_root_bit new_border_node.version }

/-- A heap in which the search is started at a node that is no longer
root: id 0 is the stale node, id 1 the true root. -/
def stale_root_heap : Heap := [stale_root_node, true_root_node]

/-- Witness full border node for the split: identity permutation of count
15, slices 10, 20, ..., 150, a right sibling at id 1. -/
def c7_full_border : Node :=
  { version := set_lock (set_border version0)
    permutation := (List.range 15).foldl (fun p i => update_permutation p i i) 0
    keyslice := (List.range 15).map fun i => 10 * (i + 1)
    parent := none
    payload := .border 0 (List.replicate 15 1)
      ((List.range 15).map fun i => [10 * (i + 1)])
      (List.replicate 15 (.kv 1 1)) none (some 1) }

/-- Witness right sibling of `c7_full_border`. -/
def c7_sibling : Node :=
  { new_border_node with
    payload := .border 0 (List.replicate 15 0) (List.replicate 15 [])
      (List.replicate 15 .unset) (some 0) none }

/-- Witness heap for the border split: the full node at 0, its sibling at
1, the freshly allocated empty sibling at 2. -/
def c7_heap : Heap := [c7_full_border, c7_sibling, new_border_node]

/-- Disjoint bitwise-or is addition: a multiple of `2 ^ k` or-ed with a
value below `2 ^ k`. -/
theorem or_of_disjoint : ∀ (k a b : Nat), a % 2 ^ k = 0 → b < 2 ^ k → a ||| b = a + b := by
  intro k
  induction k with
  | zero =>
    intro a b _ hb
    have h1 : (2 : Nat) ^ 0 = 1 := rfl
    have hb0 : b = 0 := by omega
    subst hb0
    simp
  | succ k ih =>
    intro a b ha hb
    obtain ⟨q, hq⟩ := Nat.dvd_of_mod_eq_zero ha
    have hpow : (2 : Nat) ^ (k + 1) = 2 * 2 ^ k := by rw [Nat.pow_succ]; ring
    have ha2 : (a / 2) % 2 ^ k = 0 := by
      subst hq
      rw [hpow, Nat.mul_assoc, Nat.mul_div_cancel_left _ (by norm_num : 0 < 2)]
      exact Nat.mul_mod_right _ _
    have hb2 : b / 2 < 2 ^ k := by rw [hpow] at hb; omega
    have hamod : a % 2 = 0 := by
      subst hq
      rw [hpow, Nat.mul_assoc]
      exact Nat.mul_mod_right 2 _
    have hIH := ih (a / 2) (b / 2) ha2 hb2
    have hdm := Nat.div_add_mod (a ||| b) 2
    have hdiv : (a ||| b) / 2 = a / 2 ||| b / 2 := Nat.or_div_two
    have hmod := Nat.or_mod_two_eq_one (a := a) (b := b)
    have hmlt : (a ||| b) % 2 < 2 := Nat.mod_lt _ (by norm_num)
    rw [hdiv, hIH] at hdm
    omega

/-- Adding a value smaller than a common divisor `d` of `a` and `D` does
not change division by `D`. -/
theorem add_small_div (a b d D : Nat) (hD : 0 < D) (hdD : d ∣ D) (hda : d ∣ a)
    (hb : b < d) : (a + b) / D = a / D := by
  have hmoddvd : d ∣ a % D := (Nat.dvd_mod_iff hdD).mpr hda
  have hmodlt : a % D < D := Nat.mod_lt _ hD
  obtain ⟨m, hm⟩ := hmoddvd
  obtain ⟨e, he⟩ := hdD
  have hme : m < e := by
    by_contra hc
    push_neg at hc
    have := Nat.mul_le_mul_left d hc
    omega
  have h1 : d * (m + 1) ≤ d * e := Nat.mul_le_mul_left d hme
  have h2 : d * (m + 1) = d * m + d := Nat.mul_succ d m
  have hdam : a / D * D + a % D = a := by
    rw [Nat.mul_comm]; exact Nat.div_add_mod a D
  have hup : a + b < (a / D + 1) * D := by
    have h3 : (a / D + 1) * D = a / D * D + D := Nat.succ_mul _ _
    omega
  have hlow : a / D * D ≤ a + b :=
    le_trans (Nat.div_mul_le_self a D) (Nat.le_add_right a b)
  exact Nat.div_eq_of_lt_le hlow hup

/-- For a word below `2 ^ 64` the count nibble is plain division by
`2 ^ 60`. -/
theorem get_count_eq_div (p : Nat) (hp : p < 2 ^ 64) : get_count p = p / 2 ^ 60 := by
  unfold get_count
  rw [Nat.shiftRight_eq_div_pow]
  rw [(by norm_num : (15 : Nat) = 2 ^ 4 - 1), Nat.and_pow_two_sub_one_eq_mod]
  have h : p / 2 ^ 60 < 2 ^ 4 := by
    apply Nat.div_lt_of_lt_mul
    calc p < 2 ^ 64 := hp
    _ = 2 ^ 60 * 2 ^ 4 := by norm_num
  exact Nat.mod_eq_of_lt h

/-- Reassembling the little-endian byte image of a uint64 gives the value
back. -/
theorem bytesToSlice_natToBytes8 (x : Nat) (hx : x < 2 ^ 64) :
    bytesToSlice (natToBytes8 x) = x := by
  unfold bytesToSlice natToBytes8
  have e2 : (256 : Nat) ^ 2 = 65536 := by norm_num
  have e3 : (256 : Nat) ^ 3 = 16777216 := by norm_num
  have e4 : (256 : Nat) ^ 4 = 4294967296 := by norm_num
  have e5 : (256 : Nat) ^ 5 = 1099511627776 := by norm_num
  have e6 : (256 : Nat) ^ 6 = 281474976710656 := by norm_num
  have e7 : (256 : Nat) ^ 7 = 72057594037927936 := by norm_num
  have e64 : (2 : Nat) ^ 64 = 18446744073709551616 := by norm_num
  rw [e2, e3, e4, e5, e6, e7] at *
  rw [e64] at hx
  simp only [List.take, List.foldr]
  omega

/-- One retry iteration of find_border_node on `stale_root_heap` starting
at the stale node reduces to the next: the parent walk is dead because the
`retry` label reassigns `n = r`. -/
theorem find_border_stale_step (fuel : Nat) :
    find_border_go stale_root_heap [97] 1 0 0 (fuel + 1) .retry =
      find_border_go stale_root_heap [97] 1 0 0 fuel .retry := rfl

/-- No fuel lets find_border_node escape the retry loop when the start node
has lost IS-ROOT. -/
theorem find_border_stale_stuck :
    ∀ fuel, find_border_go stale_root_heap [97] 1 0 0 fuel .retry = none := by
  intro fuel
  induction fuel with
  | zero => rfl
  | succ fuel ih => rw [find_border_stale_step]; exact ih

/-- `v &&& 15` is `v` for `v ≤ 15`. -/
theorem and_fifteen_eq (v : Nat) (hv : v ≤ 15) : v &&& 15 = v := by
  rw [(by norm_num : (15 : Nat) = 2 ^ 4 - 1), Nat.and_pow_two_sub_one_eq_mod]
  exact Nat.mod_eq_of_lt (by omega)

/-- update_permutation in plain arithmetic: the disjoint bitwise-ors become
sums. -/
theorem update_permutation_arith (p low v : Nat) (hl : low ≤ 14) (hv : v ≤ 15) :
    update_permutation p low v =
      (p / 2 ^ ((15 - low) * 4) * 2 ^ ((15 - low) * 4) + v * 2 ^ ((14 - low) * 4) +
        p * 2 ^ ((low + 1) * 4) % 2 ^ 64 / 2 ^ ((low + 2) * 4) + 2 ^ 60) % 2 ^ 64 := by
  have hA4 : (14 - low) * 4 + 4 = (15 - low) * 4 := by omega
  have h16 : (2 : Nat) ^ ((15 - low) * 4) = 2 ^ ((14 - low) * 4) * 16 := by
    rw [← hA4, pow_add]; norm_num
  have hpos : 0 < (2 : Nat) ^ ((14 - low) * 4) := Nat.pos_pow_of_pos _ (by norm_num)
  have c2 : v * 2 ^ ((14 - low) * 4) < 2 ^ ((15 - low) * 4) := by
    rw [h16]
    calc v * 2 ^ ((14 - low) * 4) = 2 ^ ((14 - low) * 4) * v := Nat.mul_comm _ _
    _ < 2 ^ ((14 - low) * 4) * 16 := Nat.mul_lt_mul_of_pos_left (by omega) hpos
  have c1 : p / 2 ^ ((15 - low) * 4) * 2 ^ ((15 - low) * 4) % 2 ^ ((15 - low) * 4) = 0 :=
    Nat.mul_mod_left _ _
  have hor1 := or_of_disjoint ((15 - low) * 4)
    (p / 2 ^ ((15 - low) * 4) * 2 ^ ((15 - low) * 4)) (v * 2 ^ ((14 - low) * 4)) c1 c2
  have c3 : (p / 2 ^ ((15 - low) * 4) * 2 ^ ((15 - low) * 4) + v * 2 ^ ((14 - low) * 4)) %
      2 ^ ((14 - low) * 4) = 0 := by
    have hfac : p / 2 ^ ((15 - low) * 4) * 2 ^ ((15 - low) * 4) + v * 2 ^ ((14 - low) * 4) =
        (p / 2 ^ ((15 - low) * 4) * 16 + v) * 2 ^ ((14 - low) * 4) := by
      rw [h16]; ring
    rw [hfac]
    exact Nat.mul_mod_left _ _
  have hA64 : (2 : Nat) ^ 64 = 2 ^ ((low + 2) * 4) * 2 ^ ((14 - low) * 4) := by
    rw [← pow_add]
    congr 1
    omega
  have c4 : p * 2 ^ ((low + 1) * 4) % 2 ^ 64 / 2 ^ ((low + 2) * 4) <
      2 ^ ((14 - low) * 4) := by
    apply Nat.div_lt_of_lt_mul
    rw [← hA64]
    exact Nat.mod_lt _ (Nat.pos_pow_of_pos _ (by norm_num))
  have hor2 := or_of_disjoint ((14 - low) * 4)
    (p / 2 ^ ((15 - low) * 4) * 2 ^ ((15 - low) * 4) + v * 2 ^ ((14 - low) * 4))
    (p * 2 ^ ((low + 1) * 4) % 2 ^ 64 / 2 ^ ((low + 2) * 4)) c3 c4
  simp only [update_permutation]
  rw [Nat.shiftLeft_eq, Nat.shiftLeft_eq, Nat.shiftLeft_eq, Nat.shiftLeft_eq,
    Nat.shiftRight_eq_div_pow, Nat.shiftRight_eq_div_pow, and_fifteen_eq v hv,
    hor1, hor2, one_mul]

/-- Dividing the assembled word by `2 ^ 60` isolates the incremented count
nibble. -/
theorem word_div60 (p s M R : Nat) (hs60 : s ≤ 60) (hMR : M + R < 2 ^ s) :
    (p / 2 ^ s * 2 ^ s + M + R + 2 ^ 60) / 2 ^ 60 = p / 2 ^ 60 + 1 := by
  have hposS : 0 < (2 : Nat) ^ s := Nat.pos_pow_of_pos _ (by norm_num)
  have hfac60 : (2 : Nat) ^ 60 = 2 ^ s * 2 ^ (60 - s) := by
    rw [← pow_add]; congr 1; omega
  have hda : (2 : Nat) ^ s ∣ p / 2 ^ s * 2 ^ s + 2 ^ 60 :=
    Nat.dvd_add ⟨p / 2 ^ s, Nat.mul_comm _ _⟩ (pow_dvd_pow 2 hs60)
  have hassoc : p / 2 ^ s * 2 ^ s + M + R + 2 ^ 60 =
      p / 2 ^ s * 2 ^ s + 2 ^ 60 + (M + R) := by ring
  rw [hassoc, add_small_div _ _ (2 ^ s) (2 ^ 60)
    (Nat.pos_pow_of_pos _ (by norm_num)) (pow_dvd_pow 2 hs60) hda hMR]
  rw [Nat.add_div_right _ (Nat.pos_pow_of_pos _ (by norm_num))]
  congr 1
  rw [hfac60, Nat.mul_comm (p / 2 ^ s) (2 ^ s)]
  calc 2 ^ s * (p / 2 ^ s) / (2 ^ s * 2 ^ (60 - s)) =
      p / 2 ^ s / 2 ^ (60 - s) := Nat.mul_div_mul_left _ _ hposS
  _ = p / (2 ^ s * 2 ^ (60 - s)) := Nat.div_div_eq_div_mul _ _ _

/-- Dividing the assembled word by `2 ^ A` and reducing modulo 16 isolates
the inserted nibble `v`. -/
theorem word_modA (p A v R : Nat) (hA56 : A ≤ 56) (hR : R < 2 ^ A) (hv : v ≤ 15) :
    (p / 2 ^ (A + 4) * 2 ^ (A + 4) + v * 2 ^ A + R + 2 ^ 60) / 2 ^ A % 16 = v := by
  have hposA : 0 < (2 : Nat) ^ A := Nat.pos_pow_of_pos _ (by norm_num)
  have e1 : (2 : Nat) ^ (A + 4) = 2 ^ A * 16 := by rw [pow_add]; norm_num
  have e2 : (2 : Nat) ^ 60 = 16 * 2 ^ (56 - A) * 2 ^ A := by
    rw [(by norm_num : (16 : Nat) = 2 ^ 4), ← pow_add, ← pow_add]
    congr 1
    omega
  have h1 : p / 2 ^ (A + 4) * 2 ^ (A + 4) + v * 2 ^ A + R + 2 ^ 60 =
      R + 2 ^ A * (p / 2 ^ (A + 4) * 16 + v + 16 * 2 ^ (56 - A)) := by
    rw [e1, e2]; ring
  rw [h1, Nat.add_mul_div_left _ _ hposA, Nat.div_eq_of_lt hR, Nat.zero_add]
  have h2 : p / 2 ^ (A + 4) * 16 + v + 16 * 2 ^ (56 - A) =
      16 * (p / 2 ^ (A + 4) + 2 ^ (56 - A)) + v := by ring
  rw [h2, Nat.mul_add_mod]
  exact Nat.mod_eq_of_lt (by omega)

/-- The count nibble after update_permutation: one more than before. -/
theorem update_permutation_count (p low v : Nat) (hp : p < 2 ^ 64) (hl : low ≤ 14)
    (hcap : get_count p < 15) (hv : v ≤ 15) :
    get_count (update_permutation p low v) = get_count p + 1 := by
  have hA4 : (14 - low) * 4 + 4 = (15 - low) * 4 := by omega
  have hs60 : (15 - low) * 4 ≤ 60 := by omega
  have h16 : (2 : Nat) ^ ((15 - low) * 4) = 2 ^ ((14 - low) * 4) * 16 := by
    rw [← hA4, pow_add]; norm_num
  have h16r : 16 * 2 ^ ((14 - low) * 4) = 2 ^ ((15 - low) * 4) := by rw [h16]; ring
  have hdiv60 : p / 2 ^ 60 < 15 := by rw [← get_count_eq_div p hp]; exact hcap
  have hplt : p < 15 * 2 ^ 60 := by
    by_contra hc
    push_neg at hc
    exact absurd ((Nat.le_div_iff_mul_le (Nat.pos_pow_of_pos _ (by norm_num))).mpr hc)
      (by omega)
  have hMle : v * 2 ^ ((14 - low) * 4) ≤ 15 * 2 ^ ((14 - low) * 4) :=
    Nat.mul_le_mul_right _ hv
  have hRlt : p * 2 ^ ((low + 1) * 4) % 2 ^ 64 / 2 ^ ((low + 2) * 4) <
      2 ^ ((14 - low) * 4) := by
    apply Nat.div_lt_of_lt_mul
    have hA64 : (2 : Nat) ^ 64 = 2 ^ ((low + 2) * 4) * 2 ^ ((14 - low) * 4) := by
      rw [← pow_add]; congr 1; omega
    rw [← hA64]
    exact Nat.mod_lt _ (Nat.pos_pow_of_pos _ (by norm_num))
  have hMR : v * 2 ^ ((14 - low) * 4) +
      p * 2 ^ ((low + 1) * 4) % 2 ^ 64 / 2 ^ ((low + 2) * 4) <
      16 * 2 ^ ((14 - low) * 4) := by omega
  have hfac60 : (2 : Nat) ^ 60 = 2 ^ ((15 - low) * 4) * 2 ^ (60 - (15 - low) * 4) := by
    rw [← pow_add]; congr 1; omega
  have hLbound : p / 2 ^ ((15 - low) * 4) * 2 ^ ((15 - low) * 4) +
      16 * 2 ^ ((14 - low) * 4) ≤ 15 * 2 ^ 60 := by
    have hq : p / 2 ^ ((15 - low) * 4) < 15 * 2 ^ (60 - (15 - low) * 4) := by
      apply Nat.div_lt_of_lt_mul
      calc p < 15 * 2 ^ 60 := hplt
      _ = 2 ^ ((15 - low) * 4) * (15 * 2 ^ (60 - (15 - low) * 4)) := by
          rw [hfac60]; ring
    have hq1 : p / 2 ^ ((15 - low) * 4) + 1 ≤ 15 * 2 ^ (60 - (15 - low) * 4) := hq
    have hmul := Nat.mul_le_mul_right (2 ^ ((15 - low) * 4)) hq1
    calc p / 2 ^ ((15 - low) * 4) * 2 ^ ((15 - low) * 4) + 16 * 2 ^ ((14 - low) * 4) =
        (p / 2 ^ ((15 - low) * 4) + 1) * 2 ^ ((15 - low) * 4) := by rw [h16r]; ring
    _ ≤ 15 * 2 ^ (60 - (15 - low) * 4) * 2 ^ ((15 - low) * 4) := hmul
    _ = 15 * 2 ^ 60 := by rw [hfac60]; ring
  have hT : p / 2 ^ ((15 - low) * 4) * 2 ^ ((15 - low) * 4) + v * 2 ^ ((14 - low) * 4) +
      p * 2 ^ ((low + 1) * 4) % 2 ^ 64 / 2 ^ ((low + 2) * 4) + 2 ^ 60 < 2 ^ 64 := by
    omega
  have hword : update_permutation p low v =
      p / 2 ^ ((15 - low) * 4) * 2 ^ ((15 - low) * 4) + v * 2 ^ ((14 - low) * 4) +
        p * 2 ^ ((low + 1) * 4) % 2 ^ 64 / 2 ^ ((low + 2) * 4) + 2 ^ 60 := by
    rw [update_permutation_arith p low v hl hv]
    exact Nat.mod_eq_of_lt hT
  rw [get_count_eq_div _ (by rw [hword]; exact hT), get_count_eq_div p hp, hword]
  exact word_div60 p ((15 - low) * 4) _ _ hs60 (by omega)

/-- The logical position written by update_permutation holds the inserted
physical slot value. -/
theorem update_permutation_get_index (p low v : Nat) (hp : p < 2 ^ 64) (hl : low ≤ 14)
    (hcap : get_count p < 15) (hv : v ≤ 15) :
    get_index (update_permutation p low v) low = v := by
  have hA4 : (14 - low) * 4 + 4 = (15 - low) * 4 := by omega
  have h16 : (2 : Nat) ^ ((15 - low) * 4) = 2 ^ ((14 - low) * 4) * 16 := by
    rw [← hA4, pow_add]; norm_num
  have h16r : 16 * 2 ^ ((14 - low) * 4) = 2 ^ ((15 - low) * 4) := by rw [h16]; ring
  have hdiv60 : p / 2 ^ 60 < 15 := by rw [← get_count_eq_div p hp]; exact hcap
  have hplt : p < 15 * 2 ^ 60 := by
    by_contra hc
    push_neg at hc
    exact absurd ((Nat.le_div_iff_mul_le (Nat.pos_pow_of_pos _ (by norm_num))).mpr hc)
      (by omega)
  have hMle : v * 2 ^ ((14 - low) * 4) ≤ 15 * 2 ^ ((14 - low) * 4) :=
    Nat.mul_le_mul_right _ hv
  have hRlt : p * 2 ^ ((low + 1) * 4) % 2 ^ 64 / 2 ^ ((low + 2) * 4) <
      2 ^ ((14 - low) * 4) := by
    apply Nat.div_lt_of_lt_mul
    have hA64 : (2 : Nat) ^ 64 = 2 ^ ((low + 2) * 4) * 2 ^ ((14 - low) * 4) := by
      rw [← pow_add]; congr 1; omega
    rw [← hA64]
    exact Nat.mod_lt _ (Nat.pos_pow_of_pos _ (by norm_num))
  have hfac60 : (2 : Nat) ^ 60 = 2 ^ ((15 - low) * 4) * 2 ^ (60 - (15 - low) * 4) := by
    rw [← pow_add]; congr 1; omega
  have hLbound : p / 2 ^ ((15 - low) * 4) * 2 ^ ((15 - low) * 4) +
      16 * 2 ^ ((14 - low) * 4) ≤ 15 * 2 ^ 60 := by
    have hq : p / 2 ^ ((15 - low) * 4) < 15 * 2 ^ (60 - (15 - low) * 4) := by
      apply Nat.div_lt_of_lt_mul
      calc p < 15 * 2 ^ 60 := hplt
      _ = 2 ^ ((15 - low) * 4) * (15 * 2 ^ (60 - (15 - low) * 4)) := by
          rw [hfac60]; ring
    have hq1 : p / 2 ^ ((15 - low) * 4) + 1 ≤ 15 * 2 ^ (60 - (15 - low) * 4) := hq
    have hmul := Nat.mul_le_mul_right (2 ^ ((15 - low) * 4)) hq1
    calc p / 2 ^ ((15 - low) * 4) * 2 ^ ((15 - low) * 4) + 16 * 2 ^ ((14 - low) * 4) =
        (p / 2 ^ ((15 - low) * 4) + 1) * 2 ^ ((15 - low) * 4) := by rw [h16r]; ring
    _ ≤ 15 * 2 ^ (60 - (15 - low) * 4) * 2 ^ ((15 - low) * 4) := hmul
    _ = 15 * 2 ^ 60 := by rw [hfac60]; ring
  have hT : p / 2 ^ ((15 - low) * 4) * 2 ^ ((15 - low) * 4) + v * 2 ^ ((14 - low) * 4) +
      p * 2 ^ ((low + 1) * 4) % 2 ^ 64 / 2 ^ ((low + 2) * 4) + 2 ^ 60 < 2 ^ 64 := by
    omega
  have hword : update_permutation p low v =
      p / 2 ^ ((15 - low) * 4) * 2 ^ ((15 - low) * 4) + v * 2 ^ ((14 - low) * 4) +
        p * 2 ^ ((low + 1) * 4) % 2 ^ 64 / 2 ^ ((low + 2) * 4) + 2 ^ 60 := by
    rw [update_permutation_arith p low v hl hv]
    exact Nat.mod_eq_of_lt hT
  unfold get_index
  rw [Nat.shiftRight_eq_div_pow,
    (by norm_num : (15 : Nat) = 2 ^ 4 - 1), Nat.and_pow_two_sub_one_eq_mod,
    (by norm_num : (2 : Nat) ^ 4 = 16),
    (by omega : 4 * (14 - low) = (14 - low) * 4), hword, ← hA4]
  exact word_modA p ((14 - low) * 4) v _ (by omega) hRlt hv

/-- The node_insert binary search misses when no logical position holds the
probed slice; the final `low` stays within `[low, high + 1]`. -/
theorem insert_bsearch_miss (ks : List Nat) (p cur : Nat) (count : Nat)
    (habs : ∀ i : Nat, i < count → ks.getD (get_index p i) 0 ≠ cur) :
    ∀ fuel : Nat, ∀ low high : Int, 0 ≤ low → low ≤ high + 1 → high < (count : Int) →
      (high + 1 - low).toNat ≤ fuel →
      ∃ lowf : Int, insert_bsearch ks p cur fuel low high = .miss lowf ∧
        low ≤ lowf ∧ lowf ≤ high + 1 := by
  intro fuel
  induction fuel with
  | zero =>
    intro low high h0 hlo hh hf
    exact ⟨low, rfl, le_refl _, by omega⟩
  | succ fuel ih =>
    intro low high h0 hlo hh hf
    by_cases hcase : low ≤ high
    · have hmid : Int.tdiv (low + high) 2 = (low + high) / 2 :=
        Int.tdiv_eq_ediv (by omega) (by omega)
      have hml : low ≤ Int.tdiv (low + high) 2 := by rw [hmid]; omega
      have hmh : Int.tdiv (low + high) 2 ≤ high := by rw [hmid]; omega
      have hmn : (Int.tdiv (low + high) 2).toNat < count := by omega
      have hne := habs (Int.tdiv (low + high) 2).toNat hmn
      simp only [insert_bsearch]
      rw [if_pos hcase, if_neg hne]
      by_cases hlt : ks.getD (get_index p (Int.tdiv (low + high) 2).toNat) 0 < cur
      · rw [if_pos hlt]
        obtain ⟨lf, heq, hl1, hl2⟩ :=
          ih (Int.tdiv (low + high) 2 + 1) high (by omega) (by omega) hh (by omega)
        exact ⟨lf, heq, by omega, hl2⟩
      · rw [if_neg hlt]
        obtain ⟨lf, heq, hl1, hl2⟩ :=
          ih low (Int.tdiv (low + high) 2 - 1) h0 (by omega) (by omega) (by omega)
        exact ⟨lf, heq, hl1, by omega⟩
    · simp only [insert_bsearch]
      rw [if_neg hcase]
      exact ⟨low, rfl, le_refl _, by omega⟩

/-- A successful dereference implies the id is in range. -/
theorem hget_lt_length {h : Heap} {i : Nat} {n : Node} (hh : hget h i = some n) :
    i < h.length := by
  unfold hget at hh
  obtain ⟨hlt, -⟩ := List.get?_eq_some.mp hh
  exact hlt

/-- Reading back a stored node. -/
theorem hget_hset_self {h : Heap} {i : Nat} (n : Node) (hi : i < h.length) :
    hget (hset h i n) i = some n := by
  unfold hget hset
  rw [List.get?_eq_getElem?, List.getElem?_set_self hi]

/-- Stores to other ids do not affect a read. -/
theorem hget_hset_ne {h : Heap} {i j : Nat} (n : Node) (hij : i ≠ j) :
    hget (hset h i n) j = hget h j := by
  unfold hget hset
  rw [List.get?_eq_getElem?, List.get?_eq_getElem?, List.getElem?_set_ne hij]

/-- hset preserves the heap size. -/
theorem hset_length (h : Heap) (i : Nat) (n : Node) : (hset h i n).length = h.length :=
  List.length_set h i n

/-- In-place updates of other ids do not affect a read. -/
theorem hget_hmod_ne {h : Heap} {i j : Nat} (f : Node → Node) (hij : i ≠ j) :
    hget (hmod h i f) j = hget h j := by
  unfold hmod
  cases heq : hget h i with
  | none => rfl
  | some n => exact hget_hset_ne (f n) hij

/-- Reading back an in-place update. -/
theorem hget_hmod_self {h : Heap} {i : Nat} (f : Node → Node) {n : Node}
    (hh : hget h i = some n) : hget (hmod h i f) i = some (f n) := by
  unfold hmod
  rw [hh]
  exact hget_hset_self (f n) (hget_lt_length hh)

/-- Indexing a materialized `(List.range k).map f` array. -/
theorem getD_range_map {α : Type} (f : Nat → α) (k i : Nat) (d : α) (hi : i < k) :
    ((List.range k).map f).getD i d = f i := by
  simp [List.getD_eq_getElem?_getD, List.getElem?_range hi]

/-- getD left of an append. -/
theorem getD_append_left {α : Type} (x y : List α) (d : α) (i : Nat)
    (hi : i < x.length) : (x ++ y).getD i d = x.getD i d :=
  List.getD_append x y d i hi

/-- getD inside a take. -/
theorem getD_take_lt {α : Type} (x : List α) (k i : Nat) (d : α) (hi : i < k) :
    (x.take k).getD i d = x.getD i d := by
  simp [List.getD_eq_getElem?_getD, List.getElem?_take_of_lt hi]

/-- getD after a drop. -/
theorem getD_drop_add {α : Type} (x : List α) (k i : Nat) (d : α) :
    (x.drop k).getD i d = x.getD (k + i) d := by
  simp [List.getD_eq_getElem?_getD, List.getElem?_drop]

/-- Position `i < 7` of an array the border split writes back into the low
node: the i-th entry of the materialized source. -/
theorem split_low_getD {α : Type} (src tail rest : List α) (d : α) (i : Nat)
    (hi : i < 7) (hsrc : src.length = 15) :
    ((src ++ tail).take 7 ++ rest).getD i d = src.getD i d := by
  rw [getD_append_left _ _ _ _ (by simp [List.length_take, List.length_append]; omega)]
  rw [getD_take_lt _ _ _ _ hi, getD_append_left _ _ _ _ (by omega)]

/-- Position `i < 8` of an array the border split shifts down inside the
high node: the (7+i)-th entry of the materialized source. -/
theorem split_high_getD {α : Type} (src tail : List α) (d : α) (i : Nat)
    (hi : i < 8) (hsrc : src.length = 15) :
    (((src ++ tail).drop 7).take 8 ++ (src ++ tail).drop 8).getD i d =
      src.getD (7 + i) d := by
  rw [getD_append_left _ _ _ _
    (by simp [List.length_take, List.length_drop, List.length_append]; omega)]
  rw [getD_take_lt _ _ _ _ hi, getD_drop_add, getD_append_left _ _ _ _ (by omega)]

/-! ### Claim theorems -/

/-- C4.  node_insert does report full at count == 15 with the offset
restored and the node untouched — but as the sentinel `(void *)-1`
(node.c:287-291), which mass_tree_put's switch (mass_tree.c:190-231)
interprets as "create a deeper layer"; its split arm expects `-2`, a value
node_insert never returns, so a full border node is never split: on a
(directly constructed) full root the 16th put runs the conflict-extraction
path, which has no colliding entry to find, instead of splitting and
returning inserted. -/
theorem put_full_root_takes_layer_branch_not_split :
    (∀ val : Ptr,
      node_insert c4_full_root [112] 1 0 val false = ⟨.sentinel (-1), c4_full_root, 0⟩) ∧
    get_count c4_full_root.permutation = 15 ∧
    mass_tree_put c4_tree [112] 1 (.valP 99) 9 = none ∧
    Ptr.sentinel (-1) ≠ Ptr.sentinel (-2) := by
  refine ⟨fun val => rfl, by decide, by decide, by decide⟩

/-- C5.  For a final partial slice at a non-zero offset the code reads the
key bytes from the *start* of the key (`memcpy(&cur, key, len - *ptr)`,
node.c:216 and node.c:255), not from the current offset as the spec
prescribes; the offset itself does advance to `len`.  On
"prefix00suffixA" at offset 8 the code hashes "prefix0" instead of
"suffixA". -/
theorem slice_partial_reads_key_start :
    (node_current_slice key_suffixA 15 8).1 =
      bytesToSlice [112, 114, 101, 102, 105, 120, 48] ∧
    spec_current_slice key_suffixA 15 8 =
      bytesToSlice [115, 117, 102, 102, 105, 120, 65] ∧
    (node_current_slice key_suffixA 15 8).1 ≠ spec_current_slice key_suffixA 15 8 ∧
    (node_current_slice key_suffixA 15 8).2.2 = 15 := by
  refine ⟨by decide, by decide, by decide, by decide⟩

/-- C9.  In find_border_node the `!is_root(v)` branch assigns
`n = node_get_parent(n)` and jumps to `retry` — whose first statement
reassigns `n = r`, so the search restarts at the original node forever
instead of continuing from the parent: with the stale node at id 0 (parent
= the true root at id 1) no fuel terminates, while starting directly at
the parent succeeds at once. -/
theorem find_border_restarts_at_r_not_parent :
    (∀ fuel, find_border_node stale_root_heap [97] 1 0 0 fuel = none) ∧
    (hget stale_root_heap 0).map Node.parent = some (some 1) ∧
    find_border_node stale_root_heap [97] 1 0 1 3 = some (1, true_root_node.version) := by
  refine ⟨fun fuel => find_border_stale_stuck fuel, by decide, by decide⟩

/-- C10.  border_node_split loads `bn->next` and stores through
`old_next->prev` with no null check (node.c:358-360): for *every* border
node whose `next` is null — the rightmost border of its layer — the
sibling splice dereferences the null pointer (modelled as `none`),
whatever the node's other fields, the rest of the heap and the sibling
id; concretely so for the directly constructed full root border, both
through node_split and when calling border_node_split directly. -/
theorem border_split_null_next_dereferences_null
    (v : Version) (p : Nat) (ks : List Nat) (par : Option Nat)
    (nr : Nat) (kl : List Nat) (sf : List (List Nat)) (lv : List LV)
    (pv : Option Nat) (tl : Heap) (j : Nat) :
    border_node_split (⟨v, p, ks, par, .border nr kl sf lv pv none⟩ :: tl) 0 j = none ∧
    border_node_split [c4_full_root, new_border_node] 0 1 = none ∧
    node_split [c4_full_root] 0 = none ∧
    (hget ([c4_full_root] : Heap) 0).map
      (fun nd => (get_count nd.permutation, node_get_next nd)) = some (15, none) := by
  refine ⟨?_, by decide, by decide, by decide⟩
  unfold border_node_split
  have h0 : hget (⟨v, p, ks, par, .border nr kl sf lv pv none⟩ :: tl) 0 =
      some ⟨v, p, ks, par, .border nr kl sf lv pv none⟩ := rfl
  cases hj : hget (⟨v, p, ks, par, .border nr kl sf lv pv none⟩ :: tl) j with
  | none => simp [h0, hj]
  | some bn1 => cases hp : bn1.payload <;> simp [h0, hj, hp]

/-- C2.  node_insert never publishes the permutation: node.c:249 loads the
word into a local variable, the update_permutation macro at node.c:316
rewrites only that local, and the function returns without calling
node_set_permutation (the split routines do, node.c:352/355/396/397) — so
for every node, key and payload, the node's permutation word, and with it
the count nibble and the logical mapping, is unchanged by the insert and
the appended entry is invisible to any subsequent read of the
permutation.  Concretely, after put("a") on a fresh tree the root's
permutation is still 0 (count 0) even though slot 0 physically holds the
key. -/
theorem node_insert_never_publishes_permutation
    (n : Node) (key : List Nat) (len off : Nat) (val : Ptr) (is_link : Bool) :
    (node_insert n key len off val is_link).n.permutation = n.permutation ∧
    get_count (node_insert n key len off val is_link).n.permutation =
      get_count n.permutation ∧
    ((mass_tree_put new_mass_tree [97] 1 (.valP 1) 9).map fun r =>
        (hget r.2.heap 0).map fun nd =>
          (nd.permutation, get_count nd.permutation, nd.keyslice.getD 0 0,
           (border_suffix nd).getD 0 [])) = some (some (0, 0, 97, [97])) := by
  have hperm : (node_insert n key len off val is_link).n.permutation = n.permutation := by
    unfold node_insert
    dsimp only
    split
    · split
      · split <;> rfl
      · rfl
    · split
      · rfl
      · rfl
  exact ⟨hperm, by rw [hperm], by decide⟩

/-- C7.  Splitting a full border node with a right sibling: the 7 lowest
entries (in permutation order) remain in `bn` at the count-7 identity
permutation, the 8 highest move to `bn1` at the count-8 identity
permutation, the fence key is `bn1->keyslice[0]` (the entry at permutation
position 7), and the new node is spliced into the sibling list between
`bn` and its old next: `bn.next = bn1`, `bn1.prev = bn`, `bn1.next = old
next`, `old next.prev = bn1`, with `bn.next` stored last in the source
(node.c:364).  When the permutation order is sorted, the keys kept in `bn`
are ≤ every key moved to `bn1` and the fence is ≤ every key of `bn1`. -/
theorem border_node_split_spec
    (h : Heap) (bnId bn1Id mId : Nat) (bn bn1 m : Node)
    (nr : Nat) (kl : List Nat) (sf : List (List Nat)) (lv : List LV) (pv : Option Nat)
    (nr1 : Nat) (kl1 : List Nat) (sf1 : List (List Nat)) (lv1 : List LV)
    (pv1 nx1 : Option Nat)
    (nrm : Nat) (klm : List Nat) (sfm : List (List Nat)) (lvm : List LV)
    (pvm nxm : Option Nat)
    (hbn : hget h bnId = some bn)
    (hbn1 : hget h bn1Id = some bn1)
    (hm : hget h mId = some m)
    (hne01 : bnId ≠ bn1Id) (hne0m : bnId ≠ mId) (hne1m : bn1Id ≠ mId)
    (hpay : bn.payload = .border nr kl sf lv pv (some mId))
    (hpay1 : bn1.payload = .border nr1 kl1 sf1 lv1 pv1 nx1)
    (hpaym : m.payload = .border nrm klm sfm lvm pvm nxm)
    (hcount : get_count bn.permutation = 15) :
    ∃ h' fence, border_node_split h bnId bn1Id = some (h', fence) ∧
      (hget h' bnId).map Node.permutation = some split_lo_perm ∧
      (hget h' bn1Id).map Node.permutation = some split_hi_perm ∧
      get_count split_lo_perm = 7 ∧ get_count split_hi_perm = 8 ∧
      (∀ i, i < 7 → (hget h' bnId).map (fun nd => nd.keyslice.getD i 0) =
        some (bn.keyslice.getD (get_index bn.permutation i) 0)) ∧
      (∀ i, i < 7 → (hget h' bnId).map (fun nd => (border_suffix nd).getD i []) =
        some (sf.getD (get_index bn.permutation i) [])) ∧
      (∀ i, i < 8 → (hget h' bn1Id).map (fun nd => nd.keyslice.getD i 0) =
        some (bn.keyslice.getD (get_index bn.permutation (7 + i)) 0)) ∧
      (∀ i, i < 8 → (hget h' bn1Id).map (fun nd => (border_suffix nd).getD i []) =
        some (sf.getD (get_index bn.permutation (7 + i)) [])) ∧
      fence = bn.keyslice.getD (get_index bn.permutation 7) 0 ∧
      (hget h' bn1Id).map (fun nd => nd.keyslice.getD 0 0) = some fence ∧
      (hget h' bnId).map node_get_next = some (some bn1Id) ∧
      (hget h' bn1Id).map node_get_prev = some (some bnId) ∧
      (hget h' bn1Id).map node_get_next = some (some mId) ∧
      (hget h' mId).map node_get_prev = some (some bn1Id) ∧
      ((∀ i j, i ≤ j → j < 15 →
          bn.keyslice.getD (get_index bn.permutation i) 0 ≤
            bn.keyslice.getD (get_index bn.permutation j) 0) →
        (∀ i j, i < 7 → j < 8 →
          bn.keyslice.getD (get_index bn.permutation i) 0 ≤
            bn.keyslice.getD (get_index bn.permutation (7 + j)) 0) ∧
        (∀ j, j < 8 → fence ≤ bn.keyslice.getD (get_index bn.permutation (7 + j)) 0)) := by
  have hlen0 : bnId < h.length := hget_lt_length hbn
  have hlen2 : bn1Id < h.length := hget_lt_length hbn1
  have hsrcK : ((List.range 15).map fun i =>
      bn.keyslice.getD (get_index bn.permutation i) 0).length = 15 := by simp
  have hsrcS : ((List.range 15).map fun i =>
      sf.getD (get_index bn.permutation i) []).length = 15 := by simp
  simp only [border_node_split, hbn, hbn1, hpay, hpay1, hcount]
  refine ⟨_, _, rfl, ?_, ?_, by decide, by decide, ?_, ?_, ?_, ?_, ?_, ?_, ?_, ?_, ?_, ?_, ?_⟩
  · rw [hget_hmod_ne _ (Ne.symm hne0m), hget_hset_ne _ (Ne.symm hne01),
      hget_hset_self _ hlen0]
    rfl
  · rw [hget_hmod_ne _ (Ne.symm hne1m),
      hget_hset_self _ (by rw [hset_length]; exact hlen2)]
    rfl
  · intro i hi
    rw [hget_hmod_ne _ (Ne.symm hne0m), hget_hset_ne _ (Ne.symm hne01),
      hget_hset_self _ hlen0]
    simp only [Option.map_some']
    rw [(split_low_getD _ _ _ _ i hi hsrcK).trans (getD_range_map _ 15 i 0 (by omega))]
  · intro i hi
    rw [hget_hmod_ne _ (Ne.symm hne0m), hget_hset_ne _ (Ne.symm hne01),
      hget_hset_self _ hlen0]
    simp only [Option.map_some', border_suffix]
    rw [(split_low_getD _ _ _ _ i hi hsrcS).trans
      (getD_range_map _ 15 i ([] : List Nat) (by omega))]
  · intro i hi
    rw [hget_hmod_ne _ (Ne.symm hne1m),
      hget_hset_self _ (by rw [hset_length]; exact hlen2)]
    simp only [Option.map_some']
    rw [(split_high_getD _ _ _ i hi hsrcK).trans
      (getD_range_map _ 15 (7 + i) 0 (by omega))]
  · intro i hi
    rw [hget_hmod_ne _ (Ne.symm hne1m),
      hget_hset_self _ (by rw [hset_length]; exact hlen2)]
    simp only [Option.map_some', border_suffix]
    rw [(split_high_getD _ _ _ i hi hsrcS).trans
      (getD_range_map _ 15 (7 + i) ([] : List Nat) (by omega))]
  · exact ((split_high_getD _ _ _ 0 (by omega) hsrcK).trans
      (getD_range_map _ 15 (7 + 0) 0 (by omega))).trans (by norm_num)
  · rw [hget_hmod_ne _ (Ne.symm hne1m),
      hget_hset_self _ (by rw [hset_length]; exact hlen2)]
    rfl
  · rw [hget_hmod_ne _ (Ne.symm hne0m), hget_hset_ne _ (Ne.symm hne01),
      hget_hset_self _ hlen0]
    simp [node_get_next]
  · rw [hget_hmod_ne _ (Ne.symm hne1m),
      hget_hset_self _ (by rw [hset_length]; exact hlen2)]
    simp [node_get_prev]
  · rw [hget_hmod_ne _ (Ne.symm hne1m),
      hget_hset_self _ (by rw [hset_length]; exact hlen2)]
    simp [node_get_next]
  · rw [hget_hmod_self _ (show hget _ mId = some m by
      rw [hget_hset_ne _ hne1m, hget_hset_ne _ hne0m]; exact hm)]
    simp [node_get_prev, hpaym]
  · intro hsort
    constructor
    · intro i j hi hj
      exact hsort i (7 + j) (by omega) (by omega)
    · intro j hj
      rw [(split_high_getD _ _ _ 0 (by omega) hsrcK).trans
        (getD_range_map _ 15 (7 + 0) 0 (by omega))]
      exact hsort (7 + 0) (7 + j) (by omega) (by omega)

/-- C7 witness: splitting the concrete full border node with a right
sibling succeeds. -/
theorem border_node_split_spec_witness :
    get_count c7_full_border.permutation = 15 ∧
    (border_node_split c7_heap 0 2).isSome = true := by
  refine ⟨by decide, ?_⟩
  obtain ⟨h', fence, heq, -⟩ := border_node_split_spec c7_heap 0 2 1
    c7_full_border new_border_node c7_sibling
    0 (List.replicate 15 1) ((List.range 15).map fun i => [10 * (i + 1)])
    (List.replicate 15 (.kv 1 1)) none
    0 (List.replicate 15 0) (List.replicate 15 []) (List.replicate 15 .unset) none none
    0 (List.replicate 15 0) (List.replicate 15 []) (List.replicate 15 .unset) (some 0) none
    rfl rfl rfl (by decide) (by decide) (by decide) rfl rfl rfl (by decide)
  rw [heq]
  rfl

/-- Reading the id a fresh allocation returns. -/
theorem hget_append_self (h : Heap) (x : Node) : hget (h ++ [x]) h.length = some x := by
  unfold hget
  rw [List.get?_eq_getElem?]
  exact List.getElem?_concat_length h x

/-- Allocation does not disturb the existing ids. -/
theorem hget_append_lt (h : Heap) (x : Node) {j : Nat} (hj : j < h.length) :
    hget (h ++ [x]) j = hget h j := by
  unfold hget
  rw [List.get?_eq_getElem?, List.get?_eq_getElem?, List.getElem?_append_left hj]

/-- An in-place update read back at its own id, unconditionally. -/
theorem hget_hmod_get (h : Heap) (i : Nat) (f : Node → Node) :
    hget (hmod h i f) i = (hget h i).map f := by
  unfold hmod
  cases heq : hget h i with
  | none => simp [heq]
  | some m =>
    simp only [heq, Option.map_some']
    exact hget_hset_self (f m) (hget_lt_length heq)

/-- node_unlock always clears the LOCKED bit. -/
theorem node_unlock_locked (v : Version) : (node_unlock v).locked = false := rfl

/-- node_unlock does not touch the IS-ROOT bit. -/
theorem node_unlock_isRoot (v : Version) : (node_unlock v).isRoot = v.isRoot := by
  unfold node_unlock unset_insert incr_vinsert unset_split incr_vsplit unset_lock
  cases hv : v.inserting <;> cases hv2 : v.splitting <;> simp [hv, hv2]

/-- node_unlock does not touch the IS-BORDER bit. -/
theorem node_unlock_isBorder (v : Version) : (node_unlock v).isBorder = v.isBorder := by
  unfold node_unlock unset_insert incr_vinsert unset_split incr_vsplit unset_lock
  cases hv : v.inserting <;> cases hv2 : v.splitting <;> simp [hv, hv2]

/-- The slice computed for the 8-byte fence key that mass_tree_grow passes
(`&fence`, length 8, offset 0). -/
theorem node_current_slice_bytes8 (x : Nat) (hx : x < 2 ^ 64) :
    node_current_slice (natToBytes8 x) 8 0 = (x, 8, 8) := by
  unfold node_current_slice
  have hlen : ¬ (0 + 8 > 8) := by norm_num
  rw [if_neg hlen]
  rw [List.drop_zero]
  have ht : (natToBytes8 x).take 8 = natToBytes8 x :=
    List.take_of_length_le (by norm_num [natToBytes8])
  rw [ht, bytesToSlice_natToBytes8 x hx]

/-- The binary search of node_insert on an empty permutation misses at 0. -/
theorem insert_bsearch_one (ks : List Nat) (p cur : Nat) :
    insert_bsearch ks p cur 1 0 (-1) = .miss 0 := rfl

end MassImpl
